import Mathlib

/-!
Verification of the Immigrant Helper Tool core against its specification.

The Python source (IMMIGRANT_HELPER_TOOL.py) is shallowly embedded below:
pure string helpers model the Python `str` methods used by the core
(restricted to ASCII, which is all the core's validation accepts for the
relevant fields), the mentor registry and resource catalog become explicit
state passed through the operations, `datetime.now()` becomes an explicit
timestamp parameter, and console reporting plus early returns become
`Option`/flag results.
-/

/- ------------------ String helpers (Python `str` methods) ------------------ -/

/-- ASCII model of Python `c.isalpha()` for a single character. -/
def isAlphaChar (c : Char) : Bool :=
  (65 ≤ c.toNat && c.toNat ≤ 90) || (97 ≤ c.toNat && c.toNat ≤ 122)

/-- The characters Python `str.strip()` removes (space, tab, LF, VT, FF, CR). -/
def isPyWhitespace (c : Char) : Bool :=
  c.toNat == 32 || c.toNat == 9 || c.toNat == 10 || c.toNat == 11 ||
    c.toNat == 12 || c.toNat == 13

/-- Python `s.replace(" ", "")`: delete every space character. -/
def removeSpaces (s : String) : String :=
  String.mk (s.toList.filter (fun c => !(c == ' ')))

/-- Strip leading and trailing whitespace from a character list. -/
def stripChars (l : List Char) : List Char :=
  ((l.dropWhile isPyWhitespace).reverse.dropWhile isPyWhitespace).reverse

/-- Python `s.strip()`. -/
def pyStrip (s : String) : String :=
  String.mk (stripChars s.toList)

/-- Python `s.lower()` (ASCII model, via `Char.toLower`). -/
def pyLower (s : String) : String :=
  String.mk (s.toList.map Char.toLower)

/-- Python `s.isalpha()`: `s` is nonempty and every character is alphabetic. -/
def pyIsAlpha (s : String) : Bool :=
  !s.toList.isEmpty && s.toList.all isAlphaChar

/- ------------------ Data model: Immigrant and Volunteer ------------------ -/

/-- One entry of `Immigrant.progress_log`:
a `{"session_type": ..., "details": ..., "timestamp": ...}` dictionary. -/
structure ProgressEntry where
  session_type : String
  details : String
  timestamp : String
deriving DecidableEq, Repr

/-- The `Immigrant` class (seeker record). -/
structure Immigrant where
  name : String
  email : String
  native_language : String
  desired_language : String
  location : String
  goals : List String
  progress_log : List ProgressEntry
deriving DecidableEq, Repr

/-- The `Volunteer` class (mentor record).  The expertise subtypes
(`LanguageMentor`, `CareerMentor`, ...) only fix the `expertise` string, so a
single record type suffices. -/
structure Volunteer where
  name : String
  email : String
  expertise : String
  available_languages : List String
  availability : Bool
deriving DecidableEq, Repr

/-- Embedding of `Volunteer.__init__`: the constructor normalizes `available_languages`
to trimmed lowercase. -/
def mkVolunteer (name email expertise : String) (langs : List String)
    (availability : Bool) : Volunteer :=
  ⟨name, email, expertise, langs.map (fun l => pyLower (pyStrip l)), availability⟩

/-- Embedding of `Immigrant.update_progress`: append one log entry.  `datetime.now()` is
modelled by the explicit `timestamp` parameter. -/
def update_progress (imm : Immigrant) (session_type details timestamp : String) :
    Immigrant :=
  { imm with progress_log := imm.progress_log ++ [⟨session_type, details, timestamp⟩] }

/-- Embedding of `Volunteer.set_availability`. -/
def set_availability (v : Volunteer) (status : Bool) : Volunteer :=
  { v with availability := status }

/- ------------------ MentorManager ------------------ -/

/-- Embedding of `MentorManager.add_mentor`: the `isinstance` guard always passes in the
typed embedding, so the mentor is unconditionally appended to the list.
No duplicate-contact check is performed here. -/
def add_mentor (mentors : List Volunteer) (mentor : Volunteer) : List Volunteer :=
  mentors ++ [mentor]

/-- The match condition tested for each mentor inside
`MentorManager.find_mentor`: expertise equal case-insensitively, mentor
available, and the seeker's desired language (lowercased) among the mentor's
languages (lowercased). -/
def mentorMatches (mentor : Volunteer) (expertise desired_language : String) : Bool :=
  pyLower mentor.expertise == pyLower expertise && mentor.availability &&
    (mentor.available_languages.map pyLower).contains (pyLower desired_language)

/-- Embedding of `MentorManager.find_mentor`: scan the mentors in insertion order; on the
first match set its availability to `false`, append a progress entry to the
immigrant's log, and return the matched mentor; otherwise return `none`.
The result is `(updated mentors, updated immigrant, matched mentor?)`;
the `save_data` call is external persistence and outside the embedded state. -/
def find_mentor (mentors : List Volunteer) (immigrant : Immigrant)
    (expertise now : String) : List Volunteer × Immigrant × Option Volunteer :=
  match mentors with
  | [] => ([], immigrant, none)
  | mentor :: rest =>
    if mentorMatches mentor expertise immigrant.desired_language then
      let matched : Volunteer := { mentor with availability := false }
      (matched :: rest,
       update_progress immigrant "Mentor Matched" ("Matched with " ++ mentor.name) now,
       some matched)
    else
      let r := find_mentor rest immigrant expertise now
      (mentor :: r.1, r.2.1, r.2.2)

/- ------------------ find_mentor characterization lemmas ------------------ -/

theorem find_mentor_of_no_match (mentors : List Volunteer) (immigrant : Immigrant)
    (expertise now : String)
    (h : ∀ m ∈ mentors, mentorMatches m expertise immigrant.desired_language = false) :
    find_mentor mentors immigrant expertise now = (mentors, immigrant, none) := by
  induction mentors with
  | nil => rfl
  | cons m rest ih =>
    have hm : mentorMatches m expertise immigrant.desired_language = false :=
      h m (List.mem_cons_self m rest)
    have hrest : ∀ v ∈ rest, mentorMatches v expertise immigrant.desired_language = false :=
      fun v hv => h v (List.mem_cons_of_mem m hv)
    simp [find_mentor, hm, ih hrest]

/-- If the `i`-th mentor is the first one matching, `find_mentor` flips exactly
that mentor and appends exactly one log entry. -/
theorem find_mentor_of_first_match (mentors : List Volunteer) (immigrant : Immigrant)
    (expertise now : String) (i : Nat) (hi : i < mentors.length)
    (hmatch : mentorMatches (mentors.get ⟨i, hi⟩) expertise immigrant.desired_language = true)
    (hbefore : ∀ m ∈ mentors.take i,
      mentorMatches m expertise immigrant.desired_language = false) :
    find_mentor mentors immigrant expertise now =
      (mentors.set i { mentors.get ⟨i, hi⟩ with availability := false },
       update_progress immigrant "Mentor Matched"
         ("Matched with " ++ (mentors.get ⟨i, hi⟩).name) now,
       some { mentors.get ⟨i, hi⟩ with availability := false }) := by
  induction mentors generalizing i with
  | nil => simp at hi
  | cons m rest ih =>
    cases i with
    | zero =>
      simp only [List.get] at hmatch
      simp [find_mentor, hmatch]
    | succ j =>
      have hm : mentorMatches m expertise immigrant.desired_language = false := by
        apply hbefore
        simp [List.take]
      have hj : j < rest.length := by simpa using hi
      have hrest : ∀ v ∈ rest.take j,
          mentorMatches v expertise immigrant.desired_language = false := by
        intro v hv
        exact hbefore v (by simp [List.take, hv])
      have := ih j hj (by simpa using hmatch) hrest
      simp [find_mentor, hm, this]

/-- Any `some` result of `find_mentor` comes from a first matching index:
the winner was available beforehand, is returned with availability `false`,
the registry is updated only at that index, and exactly one log entry whose
detail mentions the winner's name is appended. -/
theorem find_mentor_some_inv (mentors : List Volunteer) (immigrant : Immigrant)
    (expertise now : String) (m : Volunteer)
    (h : (find_mentor mentors immigrant expertise now).2.2 = some m) :
    ∃ i, ∃ hi : i < mentors.length,
      mentorMatches (mentors.get ⟨i, hi⟩) expertise immigrant.desired_language = true ∧
      (mentors.get ⟨i, hi⟩).availability = true ∧
      m = { mentors.get ⟨i, hi⟩ with availability := false } ∧
      (∀ v ∈ mentors.take i, mentorMatches v expertise immigrant.desired_language = false) ∧
      find_mentor mentors immigrant expertise now =
        (mentors.set i m,
         update_progress immigrant "Mentor Matched"
           ("Matched with " ++ (mentors.get ⟨i, hi⟩).name) now,
         some m) := by
  induction mentors with
  | nil => simp [find_mentor] at h
  | cons v rest ih =>
    by_cases hv : mentorMatches v expertise immigrant.desired_language = true
    · have hav : v.availability = true := by
        have := hv
        simp only [mentorMatches, Bool.and_eq_true] at this
        exact this.1.2
      have hm : m = { v with availability := false } := by
        simp [find_mentor, hv] at h
        exact h.symm
      refine ⟨0, by simp, by simpa using hv, by simpa using hav, by simpa using hm, ?_, ?_⟩
      · simp [List.take]
      · simp [find_mentor, hv, hm]
    · have hv' : mentorMatches v expertise immigrant.desired_language = false := by
        simpa using hv
      have htail : (find_mentor rest immigrant expertise now).2.2 = some m := by
        simpa [find_mentor, hv'] using h
      obtain ⟨i, hi, h1, h2, h3, h4, h5⟩ := ih htail
      refine ⟨i + 1, by simpa using Nat.succ_lt_succ hi, by simpa using h1,
        by simpa using h2, by simpa using h3, ?_, ?_⟩
      · intro w hw
        rcases (by simpa [List.take] using hw :
            w = v ∨ w ∈ rest.take i) with rfl | hw'
        · exact hv'
        · exact h4 w hw'
      · simp [find_mentor, hv', h5]

/-- The first index satisfying a predicate exists whenever some element does. -/
theorem exists_first_sat {α : Type} (p : α → Bool) (l : List α)
    (h : ∃ x ∈ l, p x = true) :
    ∃ i, ∃ hi : i < l.length,
      p (l.get ⟨i, hi⟩) = true ∧ ∀ x ∈ l.take i, p x = false := by
  induction l with
  | nil => simp at h
  | cons a t ih =>
    by_cases ha : p a = true
    · exact ⟨0, by simp, by simpa using ha, by simp [List.take]⟩
    · obtain ⟨x, hx, hpx⟩ := h
      rcases List.mem_cons.mp hx with rfl | hx'
      · exact absurd hpx ha
      · obtain ⟨i, hi, h1, h2⟩ := ih ⟨x, hx', hpx⟩
        refine ⟨i + 1, by simpa using Nat.succ_lt_succ hi, by simpa using h1, ?_⟩
        intro y hy
        rcases (by simpa [List.take] using hy : y = a ∨ y ∈ t.take i) with rfl | hy'
        · simpa using ha
        · exact h2 y hy'

/- ------------------ Concrete sample records ------------------ -/

def vAlice : Volunteer :=
  ⟨"Alice Smith", "alice.smith@example.com", "language", ["english", "spanish"], true⟩

/-- A second record whose contact differs from `vAlice`'s only by case. -/
def vAliceDup : Volunteer :=
  ⟨"Alice Clone", "Alice.Smith@Example.COM", "career", ["english"], true⟩

def vLegal : Volunteer :=
  ⟨"Eve Martinez", "eve.martinez@example.com", "legal", ["english", "portuguese"], true⟩

def iMaria : Immigrant :=
  ⟨"Maria", "maria@example.com", "spanish", "spanish", "san jose",
    ["Language Practice"], []⟩

/- ------------------ C1 ------------------ -/

/-- C1 counterexample: `add_mentor` performs no duplicate-contact check.
Adding a record whose contact equals an existing one under case-insensitive
comparison does not fail and does not leave the registry unchanged: the
duplicate is inserted. -/
theorem add_mentor_duplicate_counterexample :
    pyLower vAliceDup.email = pyLower vAlice.email ∧
    add_mentor [vAlice] vAliceDup ≠ [vAlice] ∧
    vAliceDup ∈ add_mentor [vAlice] vAliceDup := by
  refine ⟨by decide, by decide, by decide⟩

/-- C1 (amended): `MentorManager.add_mentor` never rejects a mentor record:
even when some present record has the same contact under case-insensitive
comparison, the new record is appended, the registry grows by one, and every
previous record is retained (so duplicates coexist).  Duplicate detection is
done by the interactive registration flow, not by the registry's add. -/
theorem add_mentor_inserts_despite_duplicate (mentors : List Volunteer)
    (mentor : Volunteer)
    (_h : ∃ m ∈ mentors, pyLower m.email = pyLower mentor.email) :
    add_mentor mentors mentor = mentors ++ [mentor] ∧
    (add_mentor mentors mentor).length = mentors.length + 1 ∧
    mentor ∈ add_mentor mentors mentor ∧
    ∀ m ∈ mentors, m ∈ add_mentor mentors mentor := by
  refine ⟨rfl, by simp [add_mentor], by simp [add_mentor], ?_⟩
  intro m hm
  simp [add_mentor, hm]

theorem add_mentor_inserts_despite_duplicate_witness :
    add_mentor [vAlice] vAliceDup = [vAlice] ++ [vAliceDup] ∧
    (add_mentor [vAlice] vAliceDup).length = [vAlice].length + 1 ∧
    vAliceDup ∈ add_mentor [vAlice] vAliceDup ∧
    ∀ m ∈ [vAlice], m ∈ add_mentor [vAlice] vAliceDup :=
  add_mentor_inserts_despite_duplicate [vAlice] vAliceDup
    ⟨vAlice, by decide, by decide⟩

/- ------------------ C2 ------------------ -/

/-- C2: when some mentor satisfies all three conditions, `find_mentor` picks
the first such record in insertion order (every earlier record fails the
condition), flips exactly the winner's availability to `false`, appends
exactly one progress entry whose detail contains the mentor's name, and
returns the winner. -/
theorem find_mentor_first_fit (mentors : List Volunteer) (immigrant : Immigrant)
    (expertise now : String)
    (h : ∃ m ∈ mentors, mentorMatches m expertise immigrant.desired_language = true) :
    ∃ i, ∃ hi : i < mentors.length,
      mentorMatches (mentors.get ⟨i, hi⟩) expertise immigrant.desired_language = true ∧
      (∀ m ∈ mentors.take i, mentorMatches m expertise immigrant.desired_language = false) ∧
      find_mentor mentors immigrant expertise now =
        (mentors.set i { mentors.get ⟨i, hi⟩ with availability := false },
         update_progress immigrant "Mentor Matched"
           ("Matched with " ++ (mentors.get ⟨i, hi⟩).name) now,
         some { mentors.get ⟨i, hi⟩ with availability := false }) ∧
      (update_progress immigrant "Mentor Matched"
          ("Matched with " ++ (mentors.get ⟨i, hi⟩).name) now).progress_log =
        immigrant.progress_log ++
          [⟨"Mentor Matched", "Matched with " ++ (mentors.get ⟨i, hi⟩).name, now⟩] ∧
      ∃ pre, "Matched with " ++ (mentors.get ⟨i, hi⟩).name =
        pre ++ (mentors.get ⟨i, hi⟩).name := by
  obtain ⟨i, hi, h1, h2⟩ :=
    exists_first_sat (fun m => mentorMatches m expertise immigrant.desired_language)
      mentors h
  exact ⟨i, hi, h1, h2,
    find_mentor_of_first_match mentors immigrant expertise now i hi h1 h2,
    rfl, ⟨"Matched with ", rfl⟩⟩

theorem find_mentor_first_fit_witness :
    ∃ i, ∃ hi : i < [vLegal, vAlice].length,
      mentorMatches ([vLegal, vAlice].get ⟨i, hi⟩) "Language" iMaria.desired_language = true ∧
      (∀ m ∈ [vLegal, vAlice].take i,
        mentorMatches m "Language" iMaria.desired_language = false) ∧
      find_mentor [vLegal, vAlice] iMaria "Language" "2024-01-01 10:00:00" =
        ([vLegal, vAlice].set i
          { [vLegal, vAlice].get ⟨i, hi⟩ with availability := false },
         update_progress iMaria "Mentor Matched"
           ("Matched with " ++ ([vLegal, vAlice].get ⟨i, hi⟩).name) "2024-01-01 10:00:00",
         some { [vLegal, vAlice].get ⟨i, hi⟩ with availability := false }) ∧
      (update_progress iMaria "Mentor Matched"
          ("Matched with " ++ ([vLegal, vAlice].get ⟨i, hi⟩).name)
          "2024-01-01 10:00:00").progress_log =
        iMaria.progress_log ++
          [⟨"Mentor Matched",
            "Matched with " ++ ([vLegal, vAlice].get ⟨i, hi⟩).name,
            "2024-01-01 10:00:00"⟩] ∧
      ∃ pre, "Matched with " ++ ([vLegal, vAlice].get ⟨i, hi⟩).name =
        pre ++ ([vLegal, vAlice].get ⟨i, hi⟩).name :=
  find_mentor_first_fit [vLegal, vAlice] iMaria "Language" "2024-01-01 10:00:00"
    ⟨vAlice, by decide, by decide⟩

/- ------------------ C5 ------------------ -/

/-- C5: when no mentor satisfies all three conditions, `find_mentor` returns
the no-match signal `none` and leaves both the registry and the seeker
(hence the progress log) unchanged.  The no-match case is an ordinary return
value of the total embedded function, not an exception. -/
theorem find_mentor_no_match_no_mutation (mentors : List Volunteer)
    (immigrant : Immigrant) (expertise now : String)
    (h : ∀ m ∈ mentors, mentorMatches m expertise immigrant.desired_language = false) :
    find_mentor mentors immigrant expertise now = (mentors, immigrant, none) ∧
    (find_mentor mentors immigrant expertise now).1 = mentors ∧
    (find_mentor mentors immigrant expertise now).2.1.progress_log =
      immigrant.progress_log := by
  have := find_mentor_of_no_match mentors immigrant expertise now h
  exact ⟨this, by rw [this], by rw [this]⟩

theorem find_mentor_no_match_no_mutation_witness :
    find_mentor [vLegal] iMaria "career" "2024-01-01 10:00:00" =
      ([vLegal], iMaria, none) ∧
    (find_mentor [vLegal] iMaria "career" "2024-01-01 10:00:00").1 = [vLegal] ∧
    (find_mentor [vLegal] iMaria "career" "2024-01-01 10:00:00").2.1.progress_log =
      iMaria.progress_log :=
  find_mentor_no_match_no_mutation [vLegal] iMaria "career" "2024-01-01 10:00:00"
    (by decide)

/- ------------------ Resource catalog: data model ------------------ -/

/-- Embedding of `Resource.resource_db`: a Python dict of dicts, modelled as an
insertion-ordered association list `location -> category -> resource names`.
Python dicts keep insertion order and have unique keys; new keys are
appended at the end, existing keys are updated in place. -/
abbrev ResourceDB := List (String × List (String × List String))

/-- Python `key in dict`. -/
def alistHas {β : Type} (l : List (String × β)) (k : String) : Bool :=
  l.any (fun p => p.1 == k)

/-- Python `dict[key]` (as an `Option`: `none` models `KeyError`). -/
def alistGet {β : Type} (l : List (String × β)) (k : String) : Option β :=
  (l.find? (fun p => p.1 == k)).map (fun p => p.2)

/-- Update the value stored under the first occurrence of key `k` in place. -/
def alistModify {β : Type} (l : List (String × β)) (k : String) (f : β → β) :
    List (String × β) :=
  match l with
  | [] => []
  | (k', v) :: rest =>
    if k' == k then (k', f v) :: rest else (k', v) :: alistModify rest k f

/-- Embedding of `Resource.add_resource`: validate, normalize, then insert.  Result is
`(new database, success flag)`; a failed validation reports and returns the
database unchanged with flag `false` (the Python early return). -/
def add_resource (db : ResourceDB) (location category name : String) :
    ResourceDB × Bool :=
  if !(pyIsAlpha (removeSpaces location)) then (db, false)
  else if !(pyIsAlpha (removeSpaces category)) then (db, false)
  else if !((pyStrip name).toList.length > 0) then (db, false)
  else
    let location := pyLower (pyStrip location)
    let category := pyLower (pyStrip category)
    let name := pyStrip name
    let db1 := if alistHas db location then db else db ++ [(location, [])]
    let db2 := alistModify db1 location (fun cats =>
      if alistHas cats category then cats else cats ++ [(category, [])])
    let db3 := alistModify db2 location (fun cats =>
      alistModify cats category (fun names => names ++ [name]))
    (db3, true)

/- ------------------ Resource catalog: selection sort ------------------ -/

/-- The simultaneous swap `data[i], data[m] = data[m], data[i]`. -/
def swapL (l : List String) (a b : Nat) : List String :=
  (l.set a (l.getD b "")).set b (l.getD a "")

/-- The inner loop of `Resource._selection_sort`: scan `j` upward keeping the
index `mi` of the least element seen so far. -/
def findMinIdx (data : List String) (mi j : Nat) : Nat :=
  if j < data.length then
    findMinIdx data (if data.getD j "" < data.getD mi "" then j else mi) (j + 1)
  else mi
termination_by data.length - j

/-- The outer loop of `Resource._selection_sort`: for each `i`, swap the
minimum of the tail `data[i:]` into position `i`. -/
def selSortLoop (data : List String) (i : Nat) : List String :=
  if i < data.length then
    selSortLoop (swapL data i (findMinIdx data i (i + 1))) (i + 1)
  else data
termination_by data.length - i
decreasing_by simp [swapL]; omega

/-- Embedding of the underscore-prefixed selection sort method of `Resource`. -/
def selection_sort (data : List String) : List String :=
  selSortLoop data 0

/- ------------------ Resource catalog: binary search ------------------ -/

/-- Embedding of the recursive binary search method of `Resource`: midpoint elimination over the closed
interval `[left, right]`, returning the index of an exact match or `-1`.
Python's floor division `//` is `Int.fdiv`; in-range indexing is `getD`. -/
def binary_search (sorted_list : List String) (target : String)
    (left right : Int) : Int :=
  if left ≤ right then
    if sorted_list.getD ((left + right).fdiv 2).toNat "" == target then
      (left + right).fdiv 2
    else if sorted_list.getD ((left + right).fdiv 2).toNat "" < target then
      binary_search sorted_list target ((left + right).fdiv 2 + 1) right
    else
      binary_search sorted_list target left ((left + right).fdiv 2 - 1)
  else -1
termination_by (right - left + 1).toNat
decreasing_by
  all_goals
    have h2 : (0 : Int) ≤ 2 := by omega
    rw [Int.fdiv_eq_ediv _ h2]
    omega

/-- Fuel-indexed variant of `binary_search`, used to state termination:
`none` means the fuel ran out before the recursion finished. -/
def bsFuel (fuel : Nat) (sorted_list : List String) (target : String)
    (left right : Int) : Option Int :=
  match fuel with
  | 0 => none
  | fuel + 1 =>
    if left ≤ right then
      if sorted_list.getD ((left + right).fdiv 2).toNat "" == target then
        some ((left + right).fdiv 2)
      else if sorted_list.getD ((left + right).fdiv 2).toNat "" < target then
        bsFuel fuel sorted_list target ((left + right).fdiv 2 + 1) right
      else
        bsFuel fuel sorted_list target left ((left + right).fdiv 2 - 1)
    else some (-1)

/-- Access-checked variant of `binary_search`: `none` is returned if any
probed index `mid` falls outside both the current interval and the list
bounds, so `= some _` certifies that only indices between `left` and `right`
(and inside the list) are ever accessed. -/
def bsChecked (sorted_list : List String) (target : String)
    (left right : Int) : Option Int :=
  if left ≤ right then
    if 0 ≤ (left + right).fdiv 2 ∧ (left + right).fdiv 2 < (sorted_list.length : Int) ∧
        left ≤ (left + right).fdiv 2 ∧ (left + right).fdiv 2 ≤ right then
      if sorted_list.getD ((left + right).fdiv 2).toNat "" == target then
        some ((left + right).fdiv 2)
      else if sorted_list.getD ((left + right).fdiv 2).toNat "" < target then
        bsChecked sorted_list target ((left + right).fdiv 2 + 1) right
      else
        bsChecked sorted_list target left ((left + right).fdiv 2 - 1)
    else none
  else some (-1)
termination_by (right - left + 1).toNat
decreasing_by
  all_goals
    have h2 : (0 : Int) ≤ 2 := by omega
    rw [Int.fdiv_eq_ediv _ h2]
    omega

/- ------------------ Resource catalog: search ------------------ -/

/-- Embedding of `Resource.search_resources_by_category`: normalize both inputs, sort the
location keys and binary-search for the location; if found, sort that
location's category keys and binary-search for the category; return the
matched category's resource list, or `none` at whichever stage fails. -/
def search_resources_by_category (db : ResourceDB) (location category : String) :
    Option (List String) :=
  let location := pyLower (pyStrip location)
  let category := pyLower (pyStrip category)
  let sorted_locations := selection_sort (db.map Prod.fst)
  let location_index :=
    binary_search sorted_locations location 0 ((sorted_locations.length : Int) - 1)
  if location_index != -1 then
    let actual_location := sorted_locations.getD location_index.toNat ""
    match alistGet db actual_location with
    | none => none
    | some cats =>
      let sorted_categories := selection_sort (cats.map Prod.fst)
      let category_index :=
        binary_search sorted_categories category 0 ((sorted_categories.length : Int) - 1)
      if category_index != -1 then
        let actual_category := sorted_categories.getD category_index.toNat ""
        alistGet cats actual_category
      else none
  else none

/-- Well-formedness a Python dict-of-dicts always has: outer keys unique and
each inner key list unique. -/
def WFdb (db : ResourceDB) : Prop :=
  (db.map Prod.fst).Nodup ∧ ∀ p ∈ db, (p.2.map Prod.fst).Nodup

/-- Catalog states reachable from the empty catalog by `add_resource` calls. -/
inductive ReachableDB : ResourceDB → Prop where
  | nil : ReachableDB []
  | step (db : ResourceDB) (location category name : String) :
      ReachableDB db → ReachableDB (add_resource db location category name).1

/- ------------------ Binary search lemmas ------------------ -/

/-- The probed midpoint lies inside the current interval. -/
theorem mid_in_interval {left right : Int} (h : left ≤ right) :
    left ≤ (left + right).fdiv 2 ∧ (left + right).fdiv 2 ≤ right := by
  rw [Int.fdiv_eq_ediv _ (by omega : (0 : Int) ≤ 2)]
  omega

/-- Reading a (≤)-sorted list at increasing positions is monotone. -/
theorem sorted_getD_mono {S : List String} (hs : List.Sorted (· ≤ ·) S)
    {a b : Nat} (hab : a ≤ b) (hb : b < S.length) :
    S.getD a "" ≤ S.getD b "" := by
  have ha : a < S.length := lt_of_le_of_lt hab hb
  rw [List.getD_eq_getElem _ _ ha, List.getD_eq_getElem _ _ hb]
  have := hs.rel_get_of_le (a := ⟨a, ha⟩) (b := ⟨b, hb⟩) (Fin.mk_le_mk.mpr hab)
  simpa using this

/-- Correctness of a `binary_search` call over a (≤)-sorted list: the result
is `-1` and no position inside `[left, right]` holds the target, or it is an
index inside `[left, right]` holding the target. -/
theorem binary_search_spec (S : List String) (t : String)
    (hs : List.Sorted (· ≤ ·) S) :
    ∀ (n : Nat) (left right : Int), (right - left + 1).toNat ≤ n →
      0 ≤ left → right < (S.length : Int) →
      (binary_search S t left right = -1 ∧
        ∀ k : Nat, left ≤ (k : Int) → (k : Int) ≤ right → S.getD k "" ≠ t) ∨
      (∃ k : Nat, binary_search S t left right = (k : Int) ∧
        left ≤ (k : Int) ∧ (k : Int) ≤ right ∧ S.getD k "" = t) := by
  intro n
  induction n with
  | zero =>
    intro left right hn hl hr
    have hlr : ¬ left ≤ right := by omega
    left
    refine ⟨?_, ?_⟩
    · rw [binary_search, if_neg hlr]
    · intro k hk1 hk2
      omega
  | succ n ih =>
    intro left right hn hl hr
    by_cases hlr : left ≤ right
    · have hmb := mid_in_interval hlr
      have hm0 : (0 : Int) ≤ (left + right).fdiv 2 := le_trans hl hmb.1
      have hmN : (((left + right).fdiv 2).toNat : Int) = (left + right).fdiv 2 :=
        Int.toNat_of_nonneg hm0
      have hmlen : ((left + right).fdiv 2).toNat < S.length := by omega
      rw [binary_search, if_pos hlr]
      by_cases he : (S.getD ((left + right).fdiv 2).toNat "" == t) = true
      · rw [if_pos he]
        right
        exact ⟨((left + right).fdiv 2).toNat, by omega, by omega, by omega,
          eq_of_beq he⟩
      · rw [if_neg he]
        have hne : S.getD ((left + right).fdiv 2).toNat "" ≠ t := by
          simpa using he
        by_cases hlt : S.getD ((left + right).fdiv 2).toNat "" < t
        · rw [if_pos hlt]
          have hrec := ih ((left + right).fdiv 2 + 1) right (by omega) (by omega) hr
          rcases hrec with ⟨h1, h2⟩ | ⟨k, h1, h2, h3, h4⟩
          · left
            refine ⟨h1, ?_⟩
            intro k hk1 hk2
            by_cases hkm : (k : Int) ≤ (left + right).fdiv 2
            · have hkm' : k ≤ ((left + right).fdiv 2).toNat := by omega
              have := sorted_getD_mono hs hkm' hmlen
              exact ne_of_lt (lt_of_le_of_lt this hlt)
            · exact h2 k (by omega) hk2
          · right
            exact ⟨k, h1, by omega, h3, h4⟩
        · rw [if_neg hlt]
          have hgt : t < S.getD ((left + right).fdiv 2).toNat "" :=
            lt_of_le_of_ne (not_lt.mp hlt) (fun h => hne h.symm)
          have hrec := ih left ((left + right).fdiv 2 - 1) (by omega) hl (by omega)
          rcases hrec with ⟨h1, h2⟩ | ⟨k, h1, h2, h3, h4⟩
          · left
            refine ⟨h1, ?_⟩
            intro k hk1 hk2
            by_cases hkm : ((left + right).fdiv 2) ≤ (k : Int)
            · have hkm' : ((left + right).fdiv 2).toNat ≤ k := by omega
              have hklen : k < S.length := by omega
              have := sorted_getD_mono hs hkm' hklen
              exact fun hkt => absurd (lt_of_lt_of_le hgt this) (by rw [hkt]; exact lt_irrefl t)
            · exact h2 k hk1 (by omega)
          · right
            exact ⟨k, h1, h2, by omega, h4⟩
    · have hn0 : (right - left + 1).toNat ≤ 0 := by omega
      have := ih left right (by omega) hl hr
      -- the zero-size interval case does not depend on n; redo it directly
      left
      refine ⟨?_, ?_⟩
      · rw [binary_search, if_neg hlr]
      · intro k hk1 hk2
        omega

/- ------------------ C4 ------------------ -/

/-- C4: on a strictly ascending (hence duplicate-free) list `S`, the
top-level call `binary_search S t 0 (|S| - 1)` returns an index holding `t`
whenever `t` is a member of `S` (in particular when `t` is first or last),
and the sentinel `-1` whenever `t` is not a member (in particular when it
falls between two elements). -/
theorem binary_search_correct (S : List String) (t : String)
    (hs : List.Sorted (· < ·) S) :
    (t ∈ S → ∃ i, ∃ hi : i < S.length,
      binary_search S t 0 ((S.length : Int) - 1) = (i : Int) ∧
      S.get ⟨i, hi⟩ = t) ∧
    (t ∉ S → binary_search S t 0 ((S.length : Int) - 1) = -1) := by
  have hs' : List.Sorted (· ≤ ·) S := hs.imp (fun h => le_of_lt h)
  have hspec := binary_search_spec S t hs' S.length 0 ((S.length : Int) - 1)
    (by omega) (by omega) (by omega)
  constructor
  · intro hmem
    rcases hspec with ⟨h1, h2⟩ | ⟨k, h1, h2, h3, h4⟩
    · exfalso
      obtain ⟨i, hi, hgi⟩ := List.mem_iff_getElem.mp hmem
      exact h2 i (by omega) (by omega)
        (by rw [List.getD_eq_getElem _ _ hi]; exact hgi)
    · have hk : k < S.length := by omega
      refine ⟨k, hk, h1, ?_⟩
      rw [List.get_eq_getElem, ← List.getD_eq_getElem S "" hk]
      exact h4
  · intro hmem
    rcases hspec with ⟨h1, _⟩ | ⟨k, h1, h2, h3, h4⟩
    · exact h1
    · exfalso
      have hk : k < S.length := by omega
      rw [List.getD_eq_getElem _ _ hk] at h4
      exact hmem (h4 ▸ List.getElem_mem hk)

theorem binary_search_correct_witness :
    ("pear" ∈ ["apple", "pear"] → ∃ i, ∃ hi : i < (["apple", "pear"] : List String).length,
      binary_search ["apple", "pear"] "pear" 0 (((["apple", "pear"] : List String).length : Int) - 1) = (i : Int) ∧
      (["apple", "pear"] : List String).get ⟨i, hi⟩ = "pear") ∧
    ("pear" ∉ ["apple", "pear"] → binary_search ["apple", "pear"] "pear" 0
      (((["apple", "pear"] : List String).length : Int) - 1) = -1) :=
  binary_search_correct ["apple", "pear"] "pear"
    (by simp [List.sorted_cons]; decide)

/- ------------------ C10 ------------------ -/

theorem bsFuel_sufficient (S : List String) (t : String) :
    ∀ (fuel : Nat) (left right : Int), (right - left + 1).toNat < fuel →
      bsFuel fuel S t left right = some (binary_search S t left right) := by
  intro fuel
  induction fuel with
  | zero =>
    intro left right h
    exact absurd h (Nat.not_lt_zero _)
  | succ n ih =>
    intro left right h
    by_cases hlr : left ≤ right
    · have hmb := mid_in_interval hlr
      rw [bsFuel, if_pos hlr, binary_search, if_pos hlr]
      by_cases he : (S.getD ((left + right).fdiv 2).toNat "" == t) = true
      · rw [if_pos he, if_pos he]
      · rw [if_neg he, if_neg he]
        by_cases hlt : S.getD ((left + right).fdiv 2).toNat "" < t
        · rw [if_pos hlt, if_pos hlt]
          exact ih _ _ (by omega)
        · rw [if_neg hlt, if_neg hlt]
          exact ih _ _ (by omega)
    · rw [bsFuel, if_neg hlr, binary_search, if_neg hlr]

theorem bsChecked_eq_binary_search (S : List String) (t : String) :
    ∀ (n : Nat) (left right : Int), (right - left + 1).toNat ≤ n → 0 ≤ left →
      right < (S.length : Int) →
      bsChecked S t left right = some (binary_search S t left right) := by
  intro n
  induction n with
  | zero =>
    intro left right hn hl hr
    have hlr : ¬ left ≤ right := by omega
    rw [bsChecked, if_neg hlr, binary_search, if_neg hlr]
  | succ n ih =>
    intro left right hn hl hr
    by_cases hlr : left ≤ right
    · have hmb := mid_in_interval hlr
      have hcond : 0 ≤ (left + right).fdiv 2 ∧
          (left + right).fdiv 2 < (S.length : Int) ∧
          left ≤ (left + right).fdiv 2 ∧ (left + right).fdiv 2 ≤ right :=
        ⟨by omega, by omega, hmb.1, hmb.2⟩
      rw [bsChecked, if_pos hlr, if_pos hcond, binary_search, if_pos hlr]
      by_cases he : (S.getD ((left + right).fdiv 2).toNat "" == t) = true
      · rw [if_pos he, if_pos he]
      · rw [if_neg he, if_neg he]
        by_cases hlt : S.getD ((left + right).fdiv 2).toNat "" < t
        · rw [if_pos hlt, if_pos hlt]
          exact ih _ _ (by omega) (by omega) hr
        · rw [if_neg hlt, if_neg hlt]
          exact ih _ _ (by omega) hl (by omega)
    · rw [bsChecked, if_neg hlr, binary_search, if_neg hlr]

/-- C10: the recursive binary search called with `left = 0`,
`right = |S| - 1` terminates: fuel one larger than the interval size
suffices because each recursive call strictly shrinks `right - left`
(first conjunct); every probed index stays inside `[left, right]` and
inside the list (second conjunct, via the access-checked variant); and on
the empty list (`right = -1 < left = 0`) the sentinel `-1` is returned
immediately, before any element access (third conjunct). -/
theorem binary_search_terminating (S : List String) (t : String) :
    bsFuel (S.length + 1) S t 0 ((S.length : Int) - 1) =
      some (binary_search S t 0 ((S.length : Int) - 1)) ∧
    bsChecked S t 0 ((S.length : Int) - 1) =
      some (binary_search S t 0 ((S.length : Int) - 1)) ∧
    binary_search ([] : List String) t 0 (-1) = -1 := by
  refine ⟨bsFuel_sufficient S t (S.length + 1) 0 _ (by omega),
    bsChecked_eq_binary_search S t S.length 0 _ (by omega) (by omega) (by omega),
    ?_⟩
  rw [binary_search, if_neg (by omega : ¬ (0 : Int) ≤ -1)]

/- ------------------ Selection sort lemmas ------------------ -/

theorem count_set_balance (l : List String) (i : Nat) (hi : i < l.length)
    (x c : String) :
    (l.set i x).count c + (if l.getD i "" = c then 1 else 0) =
      l.count c + (if x = c then 1 else 0) := by
  rw [List.set_eq_take_cons_drop x hi]
  conv_rhs => rw [← List.take_append_drop i l]
  rw [← List.getElem_cons_drop l i hi, List.getD_eq_getElem _ _ hi]
  simp only [List.count_append, List.count_cons]
  by_cases h1 : l[i] = c <;> by_cases h2 : x = c <;>
    simp [h1, h2] <;> omega

theorem swapL_length (l : List String) (a b : Nat) :
    (swapL l a b).length = l.length := by
  simp [swapL]

theorem swapL_perm (l : List String) (a b : Nat) (ha : a < l.length)
    (hb : b < l.length) : (swapL l a b).Perm l := by
  rw [List.perm_iff_count]
  intro c
  by_cases hab : a = b
  · subst hab
    have ha' : a < (l.set a (l.getD a "")).length := by simpa using ha
    have h1 := count_set_balance (l.set a (l.getD a "")) a ha' (l.getD a "") c
    have h2 := count_set_balance l a ha (l.getD a "") c
    have h3 : (l.set a (l.getD a "")).getD a "" = l.getD a "" := by
      rw [List.getD_eq_getElem?_getD, List.getElem?_set_self ha]
      rfl
    rw [h3] at h1
    unfold swapL
    by_cases hc : l.getD a "" = c
    · rw [if_pos hc] at h1 h2
      omega
    · rw [if_neg hc] at h1 h2
      omega
  · have hb' : b < (l.set a (l.getD b "")).length := by simpa using hb
    have h1 := count_set_balance (l.set a (l.getD b "")) b hb' (l.getD a "") c
    have h2 := count_set_balance l a ha (l.getD b "") c
    have h3 : (l.set a (l.getD b "")).getD b "" = l.getD b "" := by
      rw [List.getD_eq_getElem?_getD, List.getElem?_set_ne hab,
        ← List.getD_eq_getElem?_getD]
    rw [h3] at h1
    unfold swapL
    by_cases hc1 : l.getD b "" = c <;> by_cases hc2 : l.getD a "" = c
    · rw [if_pos hc1] at h1 h2
      rw [if_pos hc2] at h1 h2
      omega
    · rw [if_pos hc1] at h1
      rw [if_pos hc1] at h2
      rw [if_neg hc2] at h1 h2
      omega
    · rw [if_neg hc1] at h1 h2
      rw [if_pos hc2] at h1 h2
      omega
    · rw [if_neg hc1] at h1 h2
      rw [if_neg hc2] at h1 h2
      omega

theorem swapL_getD_fst (l : List String) (a b : Nat) (ha : a < l.length)
    (hb : b < l.length) : (swapL l a b).getD a "" = l.getD b "" := by
  unfold swapL
  rw [List.getD_eq_getElem?_getD]
  by_cases hab : a = b
  · subst hab
    rw [List.getElem?_set_self (by simpa using ha)]
    rfl
  · rw [List.getElem?_set_ne (fun h => hab h.symm),
      List.getElem?_set_self ha]
    rfl

theorem swapL_getD_snd (l : List String) (a b : Nat) (ha : a < l.length)
    (hb : b < l.length) : (swapL l a b).getD b "" = l.getD a "" := by
  unfold swapL
  rw [List.getD_eq_getElem?_getD,
    List.getElem?_set_self (by simpa using hb)]
  rfl

theorem swapL_getD_other (l : List String) (a b c : Nat) (h1 : c ≠ a)
    (h2 : c ≠ b) (hc : c < l.length) :
    (swapL l a b).getD c "" = l.getD c "" := by
  unfold swapL
  rw [List.getD_eq_getElem?_getD, List.getElem?_set_ne (fun h => h2 h.symm),
    List.getElem?_set_ne (fun h => h1 h.symm), ← List.getD_eq_getElem?_getD]

/-- Specification of the inner loop: the returned index is the start index
or lies in `[j, |data|)`, and it holds a value no greater than the value at
the start index and at every position in `[j, |data|)`. -/
theorem findMinIdx_spec (data : List String) :
    ∀ (n mi j : Nat), data.length - j ≤ n → mi < data.length →
      (findMinIdx data mi j = mi ∨
        (j ≤ findMinIdx data mi j ∧ findMinIdx data mi j < data.length)) ∧
      data.getD (findMinIdx data mi j) "" ≤ data.getD mi "" ∧
      ∀ l, j ≤ l → l < data.length →
        data.getD (findMinIdx data mi j) "" ≤ data.getD l "" := by
  intro n
  induction n with
  | zero =>
    intro mi j hn hmi
    have hj : ¬ j < data.length := by omega
    rw [findMinIdx, if_neg hj]
    exact ⟨Or.inl rfl, le_refl _, fun l hl1 hl2 => absurd hl2 (by omega)⟩
  | succ n ih =>
    intro mi j hn hmi
    by_cases hj : j < data.length
    · rw [findMinIdx, if_pos hj]
      by_cases hlt : data.getD j "" < data.getD mi ""
      · rw [if_pos hlt]
        obtain ⟨ha, hb, hc⟩ := ih j (j + 1) (by omega) hj
        refine ⟨?_, le_trans hb (le_of_lt hlt), ?_⟩
        · rcases ha with h | h
          · right
            omega
          · right
            omega
        · intro l hl1 hl2
          rcases Nat.eq_or_lt_of_le hl1 with rfl | hl1'
          · exact hb
          · exact hc l (by omega) hl2
      · rw [if_neg hlt]
        obtain ⟨ha, hb, hc⟩ := ih mi (j + 1) (by omega) hmi
        refine ⟨?_, hb, ?_⟩
        · rcases ha with h | h
          · exact Or.inl h
          · right
            omega
        · intro l hl1 hl2
          rcases Nat.eq_or_lt_of_le hl1 with rfl | hl1'
          · exact le_trans hb (not_lt.mp hlt)
          · exact hc l (by omega) hl2
    · rw [findMinIdx, if_neg hj]
      exact ⟨Or.inl rfl, le_refl _, fun l hl1 hl2 => absurd hl2 (by omega)⟩

/-- Specification of the outer loop: assuming the prefix before `i` is
sorted and dominates the suffix, the loop returns a permutation of its
input that is pairwise sorted. -/
theorem selSortLoop_spec :
    ∀ (N : Nat) (data : List String) (i : Nat), data.length - i ≤ N →
      (∀ k l : Nat, k < l → l < data.length → k < i →
        data.getD k "" ≤ data.getD l "") →
      (selSortLoop data i).Perm data ∧
      ∀ k l : Nat, k < l → l < (selSortLoop data i).length →
        (selSortLoop data i).getD k "" ≤ (selSortLoop data i).getD l "" := by
  intro N
  induction N with
  | zero =>
    intro data i hN hinv
    have hi : ¬ i < data.length := by omega
    rw [selSortLoop, if_neg hi]
    exact ⟨List.Perm.refl _, fun k l hkl hl => hinv k l hkl hl (by omega)⟩
  | succ N ih =>
    intro data i hN hinv
    by_cases hi : i < data.length
    · rw [selSortLoop, if_pos hi]
      obtain ⟨hma, hmb, hmc⟩ :=
        findMinIdx_spec data (data.length - (i + 1)) i (i + 1) (le_refl _) hi
      have him : i ≤ findMinIdx data i (i + 1) := by
        rcases hma with h | h
        · omega
        · omega
      have hmlen : findMinIdx data i (i + 1) < data.length := by
        rcases hma with h | h
        · omega
        · omega
      have hlen' : (swapL data i (findMinIdx data i (i + 1))).length = data.length :=
        swapL_length data i (findMinIdx data i (i + 1))
      have hd1 : (swapL data i (findMinIdx data i (i + 1))).getD i "" =
          data.getD (findMinIdx data i (i + 1)) "" :=
        swapL_getD_fst data i (findMinIdx data i (i + 1)) hi hmlen
      have hd2 : (swapL data i (findMinIdx data i (i + 1))).getD
          (findMinIdx data i (i + 1)) "" = data.getD i "" :=
        swapL_getD_snd data i (findMinIdx data i (i + 1)) hi hmlen
      have hd3 : ∀ c : Nat, c ≠ i → c ≠ findMinIdx data i (i + 1) →
          c < data.length →
          (swapL data i (findMinIdx data i (i + 1))).getD c "" = data.getD c "" :=
        fun c h1 h2 hc => swapL_getD_other data i (findMinIdx data i (i + 1)) c h1 h2 hc
      have hinv' : ∀ k l : Nat, k < l →
          l < (swapL data i (findMinIdx data i (i + 1))).length → k < i + 1 →
          (swapL data i (findMinIdx data i (i + 1))).getD k "" ≤
            (swapL data i (findMinIdx data i (i + 1))).getD l "" := by
        intro k l hkl hl hki
        rw [hlen'] at hl
        by_cases hk : k < i
        · have hkD : (swapL data i (findMinIdx data i (i + 1))).getD k "" =
              data.getD k "" := hd3 k (by omega) (by omega) (by omega)
          rw [hkD]
          by_cases hl1 : l = i
          · rw [hl1, hd1]
            exact hinv k (findMinIdx data i (i + 1)) (by omega) hmlen hk
          · by_cases hl2 : l = findMinIdx data i (i + 1)
            · rw [hl2, hd2]
              exact hinv k i hk hi hk
            · rw [hd3 l hl1 hl2 hl]
              exact hinv k l hkl hl hk
        · have hk' : k = i := by omega
          have hkD : (swapL data i (findMinIdx data i (i + 1))).getD k "" =
              data.getD (findMinIdx data i (i + 1)) "" := by
            rw [hk']
            exact hd1
          rw [hkD]
          by_cases hl2 : l = findMinIdx data i (i + 1)
          · rw [hl2, hd2]
            exact hmb
          · rw [hd3 l (by omega) hl2 hl]
            exact hmc l (by omega) hl
      obtain ⟨hp, hs⟩ := ih (swapL data i (findMinIdx data i (i + 1))) (i + 1)
        (by omega) hinv'
      exact ⟨hp.trans (swapL_perm data i (findMinIdx data i (i + 1)) hi hmlen), hs⟩
    · rw [selSortLoop, if_neg hi]
      exact ⟨List.Perm.refl _, fun k l hkl hl => hinv k l hkl hl (by omega)⟩

/-- Shared form of the selection sort guarantee: the result is a
permutation of the input and pairwise sorted ascending. -/
theorem selection_sort_spec (data : List String) :
    (selection_sort data).Perm data ∧
    List.Sorted (· ≤ ·) (selection_sort data) := by
  unfold selection_sort
  obtain ⟨h1, h2⟩ := selSortLoop_spec data.length data 0 (by omega)
    (fun k l hkl hl hk => absurd hk (by omega))
  refine ⟨h1, ?_⟩
  rw [List.Sorted, List.pairwise_iff_getElem]
  intro a b ha hb hab
  have := h2 a b hab hb
  rw [List.getD_eq_getElem _ _ ha, List.getD_eq_getElem _ _ hb] at this
  exact this

/- ------------------ C8 ------------------ -/

/-- C8: selection sort returns a permutation of its input that is sorted in
ascending (lexicographic string) order. -/
theorem selection_sort_correct (data : List String) :
    (selection_sort data).Perm data ∧
    List.Sorted (· ≤ ·) (selection_sort data) :=
  selection_sort_spec data

/- ------------------ add_resource validation lemmas ------------------ -/

theorem add_resource_fail_eq (db : ResourceDB) (location category name : String)
    (h : pyIsAlpha (removeSpaces location) = false ∨
         pyIsAlpha (removeSpaces category) = false ∨
         (pyStrip name).toList.length = 0) :
    add_resource db location category name = (db, false) := by
  rcases h with h | h | h
  · simp [add_resource, h]
  · by_cases hl : pyIsAlpha (removeSpaces location) = true
    · simp [add_resource, hl, h]
    · simp [add_resource, (Bool.not_eq_true _).mp hl]
  · by_cases hl : pyIsAlpha (removeSpaces location) = true
    · by_cases hc : pyIsAlpha (removeSpaces category) = true
      · simp [add_resource, hl, hc, h]
        exact h
      · simp [add_resource, hl, (Bool.not_eq_true _).mp hc]
    · simp [add_resource, (Bool.not_eq_true _).mp hl]

/- ------------------ C6 ------------------ -/

/-- C6: `add_resource` rejects the call and leaves the catalog completely
unchanged when the location or the category contains a non-alphabetic
character after removing spaces, or when the name trims to empty; in
particular `addResource "Inv4lid" "Health" "X"` is rejected with the
catalog unchanged. -/
theorem add_resource_rejects_invalid (db : ResourceDB)
    (location category name : String)
    (h : (∃ c ∈ (removeSpaces location).toList, isAlphaChar c = false) ∨
         (∃ c ∈ (removeSpaces category).toList, isAlphaChar c = false) ∨
         pyStrip name = "") :
    add_resource db location category name = (db, false) ∧
    add_resource db "Inv4lid" "Health" "X" = (db, false) := by
  have hInv : add_resource db "Inv4lid" "Health" "X" = (db, false) := by
    apply add_resource_fail_eq
    left
    decide
  refine ⟨?_, hInv⟩
  apply add_resource_fail_eq
  rcases h with ⟨c, hc, hca⟩ | ⟨c, hc, hca⟩ | hn
  · left
    unfold pyIsAlpha
    have hall : (removeSpaces location).toList.all isAlphaChar = false :=
      List.all_eq_false.mpr ⟨c, hc, by simp [hca]⟩
    simp [hall]
    intro hne
    exact ⟨c, hc, hca⟩
  · right
    left
    unfold pyIsAlpha
    have hall : (removeSpaces category).toList.all isAlphaChar = false :=
      List.all_eq_false.mpr ⟨c, hc, by simp [hca]⟩
    simp [hall]
    intro hne
    exact ⟨c, hc, hca⟩
  · right
    right
    rw [hn]
    rfl

theorem add_resource_rejects_invalid_witness :
    add_resource [] "Inv4lid" "Health" "Clinic" = ([], false) ∧
    add_resource [] "Inv4lid" "Health" "X" = ([], false) :=
  add_resource_rejects_invalid [] "Inv4lid" "Health" "Clinic"
    (Or.inl ⟨'4', by decide, by decide⟩)

/- ------------------ Nonempty normalized keys ------------------ -/

theorem mem_dropWhile_of_mem {l : List Char} {c : Char} (hc : c ∈ l)
    (hw : isPyWhitespace c = false) : c ∈ l.dropWhile isPyWhitespace := by
  induction l with
  | nil => cases hc
  | cons a t ih =>
    rw [List.dropWhile_cons]
    by_cases ha : isPyWhitespace a = true
    · rw [if_pos ha]
      rcases List.mem_cons.mp hc with rfl | h
      · rw [ha] at hw
        cases hw
      · exact ih h
    · rw [if_neg ha]
      exact hc

theorem stripChars_ne_nil {l : List Char} {c : Char} (hc : c ∈ l)
    (hw : isPyWhitespace c = false) : stripChars l ≠ [] := by
  unfold stripChars
  intro hemp
  have h1 : c ∈ l.dropWhile isPyWhitespace := mem_dropWhile_of_mem hc hw
  have h2 : c ∈ (l.dropWhile isPyWhitespace).reverse := List.mem_reverse.mpr h1
  have h3 : c ∈ (l.dropWhile isPyWhitespace).reverse.dropWhile isPyWhitespace :=
    mem_dropWhile_of_mem h2 hw
  rw [List.reverse_eq_nil_iff.mp hemp] at h3
  cases h3

/-- A string passing the alphabetic validation has a nonempty trimmed
lowercased normal form. -/
theorem norm_key_ne_empty (s : String) (h : pyIsAlpha (removeSpaces s) = true) :
    pyLower (pyStrip s) ≠ "" := by
  unfold pyIsAlpha at h
  rw [Bool.and_eq_true] at h
  obtain ⟨hne, hall⟩ := h
  have hne' : (removeSpaces s).toList ≠ [] := by
    intro hh
    rw [hh] at hne
    cases hne
  obtain ⟨c, hc⟩ := List.exists_mem_of_ne_nil _ hne'
  have hca : isAlphaChar c = true := by
    rw [List.all_eq_true] at hall
    exact hall c hc
  have hcs : c ∈ s.toList := by
    have hEq : (removeSpaces s).toList = s.toList.filter (fun c => !(c == ' ')) := rfl
    rw [hEq] at hc
    exact List.mem_of_mem_filter hc
  have hna : (65 ≤ c.toNat ∧ c.toNat ≤ 90) ∨ (97 ≤ c.toNat ∧ c.toNat ≤ 122) := by
    simpa [isAlphaChar] using hca
  have hw : isPyWhitespace c = false := by
    simp only [isPyWhitespace, Bool.or_eq_false_iff, beq_eq_false_iff_ne]
    omega
  intro hh
  have hdata : (stripChars s.toList).map Char.toLower = ([] : List Char) :=
    congrArg String.data hh
  exact stripChars_ne_nil hcs hw (List.map_eq_nil_iff.mp hdata)

/- ------------------ Association list lemmas ------------------ -/

theorem alistModify_pairs {β : Type} (l : List (String × β)) (k : String)
    (f : β → β) :
    ∀ p ∈ alistModify l k f, ∃ q ∈ l, p.1 = q.1 ∧ (p.2 = q.2 ∨ p.2 = f q.2) := by
  induction l with
  | nil =>
    intro p hp
    cases hp
  | cons a rest ih =>
    obtain ⟨k', v⟩ := a
    intro p hp
    by_cases h : (k' == k) = true
    · rw [alistModify, if_pos h] at hp
      rcases List.mem_cons.mp hp with rfl | hp'
      · exact ⟨(k', v), List.mem_cons_self _ _, rfl, Or.inr rfl⟩
      · exact ⟨p, List.mem_cons_of_mem _ hp', rfl, Or.inl rfl⟩
    · rw [alistModify, if_neg h] at hp
      rcases List.mem_cons.mp hp with rfl | hp'
      · exact ⟨(k', v), List.mem_cons_self _ _, rfl, Or.inl rfl⟩
      · obtain ⟨q, hq, h1, h2⟩ := ih p hp'
        exact ⟨q, List.mem_cons_of_mem _ hq, h1, h2⟩

/-- Provenance of every key in the result of `add_resource`: outer keys come
from the original catalog or are the (validated) normalized location; inner
keys come from the original catalog or are the (validated) normalized
category. -/
theorem add_resource_keys_sources (db : ResourceDB)
    (location category name : String) :
    ∀ p ∈ (add_resource db location category name).1,
      ((∃ r ∈ db, p.1 = r.1) ∨
        (pyIsAlpha (removeSpaces location) = true ∧
          p.1 = pyLower (pyStrip location))) ∧
      ∀ q ∈ p.2,
        ((∃ r ∈ db, ∃ t ∈ r.2, q.1 = t.1) ∨
          (pyIsAlpha (removeSpaces category) = true ∧
            q.1 = pyLower (pyStrip category))) := by
  intro p hp
  by_cases h1 : pyIsAlpha (removeSpaces location) = true
  case neg =>
    rw [add_resource_fail_eq db location category name
      (Or.inl ((Bool.not_eq_true _).mp h1))] at hp
    exact ⟨Or.inl ⟨p, hp, rfl⟩, fun q hq => Or.inl ⟨p, hp, q, hq, rfl⟩⟩
  by_cases h2 : pyIsAlpha (removeSpaces category) = true
  case neg =>
    rw [add_resource_fail_eq db location category name
      (Or.inr (Or.inl ((Bool.not_eq_true _).mp h2)))] at hp
    exact ⟨Or.inl ⟨p, hp, rfl⟩, fun q hq => Or.inl ⟨p, hp, q, hq, rfl⟩⟩
  by_cases h3 : (pyStrip name).toList.length = 0
  case pos =>
    rw [add_resource_fail_eq db location category name (Or.inr (Or.inr h3))] at hp
    exact ⟨Or.inl ⟨p, hp, rfl⟩, fun q hq => Or.inl ⟨p, hp, q, hq, rfl⟩⟩
  -- success branch
  have hres : (add_resource db location category name).1 =
      alistModify
        (alistModify
          (if alistHas db (pyLower (pyStrip location)) then db
            else db ++ [(pyLower (pyStrip location), [])])
          (pyLower (pyStrip location))
          (fun cats =>
            if alistHas cats (pyLower (pyStrip category)) then cats
            else cats ++ [(pyLower (pyStrip category), [])]))
        (pyLower (pyStrip location))
        (fun cats =>
          alistModify cats (pyLower (pyStrip category))
            (fun names => names ++ [pyStrip name])) := by
    have h3' : ¬ (pyStrip name).length = 0 := h3
    simp [add_resource, h1, h2, h3']
  rw [hres] at hp
  obtain ⟨q2, hq2, hk2, hv2⟩ := alistModify_pairs _ _ _ p hp
  obtain ⟨q1, hq1, hk1, hv1⟩ := alistModify_pairs _ _ _ q2 hq2
  have hq1src : q1 ∈ db ∨ q1 = (pyLower (pyStrip location), ([] : List (String × List String))) := by
    by_cases hh : alistHas db (pyLower (pyStrip location)) = true
    · rw [if_pos hh] at hq1
      exact Or.inl hq1
    · rw [if_neg hh] at hq1
      rcases List.mem_append.mp hq1 with h | h
      · exact Or.inl h
      · exact Or.inr (by simpa using h)
  -- the inner pair lists of q2 and p only rearrange or extend q1's by the
  -- normalized category key
  have hinner : ∀ q ∈ p.2, q.1 ∈ q1.2.map Prod.fst ∨
      q.1 = pyLower (pyStrip category) := by
    intro q hq
    -- step from p.2 to q2.2
    have hq' : q.1 ∈ q2.2.map Prod.fst ∨ q.1 = pyLower (pyStrip category) := by
      rcases hv2 with hv | hv
      · rw [hv] at hq
        exact Or.inl (List.mem_map.mpr ⟨q, hq, rfl⟩)
      · rw [hv] at hq
        obtain ⟨t, ht, hqt, _⟩ := alistModify_pairs _ _ _ q hq
        exact Or.inl (List.mem_map.mpr ⟨t, ht, hqt.symm⟩)
    rcases hq' with hq' | hq'
    case inr => exact Or.inr hq'
    -- step from q2.2 to q1.2
    rcases hv1 with hv | hv
    · rw [hv] at hq'
      exact Or.inl hq'
    · rw [hv] at hq'
      by_cases hh : alistHas q1.2 (pyLower (pyStrip category)) = true
      · rw [if_pos hh] at hq'
        exact Or.inl hq'
      · rw [if_neg hh] at hq'
        rw [List.map_append] at hq'
        rcases List.mem_append.mp hq' with h | h
        · exact Or.inl h
        · exact Or.inr (by simpa using h)
  constructor
  · rcases hq1src with h | h
    · exact Or.inl ⟨q1, h, by rw [hk2, hk1]⟩
    · refine Or.inr ⟨h1, ?_⟩
      rw [hk2, hk1, h]
  · intro q hq
    rcases hinner q hq with h | h
    · rcases hq1src with hsrc | hsrc
      · obtain ⟨t, ht, hqt⟩ := List.mem_map.mp h
        exact Or.inl ⟨q1, hsrc, t, ht, hqt.symm⟩
      · rw [hsrc] at h
        cases h
    · exact Or.inr ⟨h2, h⟩

/- ------------------ C9 ------------------ -/

/-- C9: in every catalog state reachable from the empty catalog by
`add_resource` calls, every location key and every category key is a
nonempty string: a location or category that is empty or all spaces fails
the alphabetic validation (Python `"".isalpha()` is false), so an
empty-string bucket is never created. -/
theorem reachable_keys_nonempty (db : ResourceDB) (h : ReachableDB db) :
    ∀ p ∈ db, p.1 ≠ "" ∧ ∀ q ∈ p.2, q.1 ≠ "" := by
  induction h with
  | nil =>
    intro p hp
    cases hp
  | step db location category name hdb ih =>
    intro p hp
    obtain ⟨houter, hinner⟩ := add_resource_keys_sources db location category name p hp
    constructor
    · rcases houter with ⟨r, hr, heq⟩ | ⟨hval, heq⟩
      · rw [heq]
        exact (ih r hr).1
      · rw [heq]
        exact norm_key_ne_empty location hval
    · intro q hq
      rcases hinner q hq with ⟨r, hr, t, ht, heq⟩ | ⟨hval, heq⟩
      · rw [heq]
        exact (ih r hr).2 t ht
      · rw [heq]
        exact norm_key_ne_empty category hval

theorem reachable_keys_nonempty_witness :
    ("san jose" : String) ≠ "" ∧ ("health" : String) ≠ "" :=
  ⟨(reachable_keys_nonempty _
      (ReachableDB.step [] "San Jose" "Health" "Clinic X" ReachableDB.nil)
      ("san jose", [("health", ["Clinic X"])]) (by decide)).1,
   (reachable_keys_nonempty _
      (ReachableDB.step [] "San Jose" "Health" "Clinic X" ReachableDB.nil)
      ("san jose", [("health", ["Clinic X"])]) (by decide)).2
     ("health", ["Clinic X"]) (by decide)⟩

/- ------------------ Association list lookup lemmas ------------------ -/

theorem alistGet_cons_pos {β : Type} (k' : String) (v : β)
    (t : List (String × β)) (k : String) (h : (k' == k) = true) :
    alistGet ((k', v) :: t) k = some v := by
  simp [alistGet, List.find?_cons, h]

theorem alistGet_cons_neg {β : Type} (k' : String) (v : β)
    (t : List (String × β)) (k : String) (h : (k' == k) = false) :
    alistGet ((k', v) :: t) k = alistGet t k := by
  simp [alistGet, List.find?_cons, h]

theorem alistGet_modify_self {β : Type} (l : List (String × β)) (k : String)
    (f : β → β) :
    alistGet (alistModify l k f) k = (alistGet l k).map f := by
  induction l with
  | nil => rfl
  | cons a rest ih =>
    obtain ⟨k', v⟩ := a
    by_cases h : (k' == k) = true
    · rw [alistModify, if_pos h, alistGet_cons_pos _ _ _ _ h,
        alistGet_cons_pos _ _ _ _ h]
      rfl
    · have h' : (k' == k) = false := by simpa using h
      rw [alistModify, if_neg h, alistGet_cons_neg _ _ _ _ h',
        alistGet_cons_neg _ _ _ _ h', ih]

theorem alistGet_append_new {β : Type} (l : List (String × β)) (k : String)
    (v : β) (h : alistHas l k = false) : alistGet (l ++ [(k, v)]) k = some v := by
  induction l with
  | nil =>
    exact alistGet_cons_pos _ _ _ _ (by simp)
  | cons a rest ih =>
    obtain ⟨k', w⟩ := a
    simp only [alistHas, List.any_cons, Bool.or_eq_false_iff] at h
    rw [List.cons_append, alistGet_cons_neg _ _ _ _ h.1]
    exact ih h.2

theorem alistGet_some_of_has {β : Type} (l : List (String × β)) (k : String)
    (h : alistHas l k = true) : ∃ v, alistGet l k = some v := by
  induction l with
  | nil => simp [alistHas] at h
  | cons a rest ih =>
    obtain ⟨k', w⟩ := a
    by_cases hk : (k' == k) = true
    · exact ⟨w, alistGet_cons_pos _ _ _ _ hk⟩
    · have hk' : (k' == k) = false := by simpa using hk
      have hrest : alistHas rest k = true := by
        simpa [alistHas, List.any_cons, hk'] using h
      obtain ⟨v, hv⟩ := ih hrest
      exact ⟨v, by rw [alistGet_cons_neg _ _ _ _ hk']; exact hv⟩

theorem mem_keys_of_alistGet_some {β : Type} {l : List (String × β)}
    {k : String} {v : β} (h : alistGet l k = some v) : k ∈ l.map Prod.fst := by
  unfold alistGet at h
  obtain ⟨p, hp1, hp2⟩ := Option.map_eq_some'.mp h
  have hmem := List.mem_of_find?_eq_some hp1
  have hpred := List.find?_some hp1
  exact List.mem_map.mpr ⟨p, hmem, eq_of_beq hpred⟩

/- ------------------ Round-trip machinery ------------------ -/

/-- After a successful `add_resource`, looking up the normalized location
and then the normalized category yields a bucket with the trimmed name at
its end. -/
theorem add_resource_success_lookup (db : ResourceDB)
    (location category name : String)
    (h1 : pyIsAlpha (removeSpaces location) = true)
    (h2 : pyIsAlpha (removeSpaces category) = true)
    (h3 : pyStrip name ≠ "") :
    ∃ cats lst,
      alistGet (add_resource db location category name).1
        (pyLower (pyStrip location)) = some cats ∧
      alistGet cats (pyLower (pyStrip category)) = some lst ∧
      pyStrip name ∈ lst := by
  have h3' : ¬ (pyStrip name).length = 0 := by
    intro hh
    apply h3
    have hdata : (pyStrip name).data = [] := List.length_eq_zero.mp hh
    unfold pyStrip at hdata ⊢
    rw [show stripChars name.toList = [] from hdata]
  have hres : (add_resource db location category name).1 =
      alistModify
        (alistModify
          (if alistHas db (pyLower (pyStrip location)) then db
            else db ++ [(pyLower (pyStrip location), [])])
          (pyLower (pyStrip location))
          (fun cats =>
            if alistHas cats (pyLower (pyStrip category)) then cats
            else cats ++ [(pyLower (pyStrip category), [])]))
        (pyLower (pyStrip location))
        (fun cats =>
          alistModify cats (pyLower (pyStrip category))
            (fun names => names ++ [pyStrip name])) := by
    simp [add_resource, h1, h2, h3']
  -- the first bucket stored under the normalized location key
  have hget1 : ∃ cats0,
      alistGet
        (if alistHas db (pyLower (pyStrip location)) then db
          else db ++ [(pyLower (pyStrip location), [])])
        (pyLower (pyStrip location)) = some cats0 := by
    by_cases hh : alistHas db (pyLower (pyStrip location)) = true
    · rw [if_pos hh]
      exact alistGet_some_of_has _ _ hh
    · rw [if_neg hh]
      exact ⟨[], alistGet_append_new _ _ _ ((Bool.not_eq_true _).mp hh)⟩
  obtain ⟨cats0, hcats0⟩ := hget1
  -- the category bucket inside the (possibly extended) location bucket
  have hget2 : ∃ lst0,
      alistGet
        (if alistHas cats0 (pyLower (pyStrip category)) then cats0
          else cats0 ++ [(pyLower (pyStrip category), [])])
        (pyLower (pyStrip category)) = some lst0 := by
    by_cases hh : alistHas cats0 (pyLower (pyStrip category)) = true
    · rw [if_pos hh]
      exact alistGet_some_of_has _ _ hh
    · rw [if_neg hh]
      exact ⟨[], alistGet_append_new _ _ _ ((Bool.not_eq_true _).mp hh)⟩
  obtain ⟨lst0, hlst0⟩ := hget2
  refine ⟨alistModify
      (if alistHas cats0 (pyLower (pyStrip category)) then cats0
        else cats0 ++ [(pyLower (pyStrip category), [])])
      (pyLower (pyStrip category)) (fun names => names ++ [pyStrip name]),
    lst0 ++ [pyStrip name], ?_, ?_, by simp⟩
  · rw [hres, alistGet_modify_self, alistGet_modify_self, hcats0]
    rfl
  · rw [alistGet_modify_self, hlst0]
    rfl

/-- A `binary_search` over a (≤)-sorted list that contains the target
returns a nonnegative in-range index holding the target. -/
theorem binary_search_found (S : List String) (t : String)
    (hs : List.Sorted (· ≤ ·) S) (hmem : t ∈ S) :
    0 ≤ binary_search S t 0 ((S.length : Int) - 1) ∧
    (binary_search S t 0 ((S.length : Int) - 1)).toNat < S.length ∧
    S.getD (binary_search S t 0 ((S.length : Int) - 1)).toNat "" = t := by
  have hspec := binary_search_spec S t hs S.length 0 ((S.length : Int) - 1)
    (by omega) (by omega) (by omega)
  rcases hspec with ⟨h1, h2⟩ | ⟨k, h1, h2, h3, h4⟩
  · exfalso
    obtain ⟨i, hi, hgi⟩ := List.mem_iff_getElem.mp hmem
    exact h2 i (by omega) (by omega)
      (by rw [List.getD_eq_getElem _ _ hi]; exact hgi)
  · rw [h1]
    refine ⟨by omega, by simpa using (by omega : k < S.length), ?_⟩
    simpa using h4

/-- If the catalog holds buckets for the normalized location and category,
`search_resources_by_category` finds and returns the category's bucket. -/
theorem search_finds_bucket (db : ResourceDB) (location category : String)
    (cats : List (String × List String)) (lst : List String)
    (hget1 : alistGet db (pyLower (pyStrip location)) = some cats)
    (hget2 : alistGet cats (pyLower (pyStrip category)) = some lst) :
    search_resources_by_category db location category = some lst := by
  obtain ⟨hperm1, hsort1⟩ := selection_sort_spec (db.map Prod.fst)
  have hmem1 : pyLower (pyStrip location) ∈ selection_sort (db.map Prod.fst) :=
    hperm1.mem_iff.mpr (mem_keys_of_alistGet_some hget1)
  obtain ⟨hge1, hlt1, hval1⟩ := binary_search_found _ _ hsort1 hmem1
  obtain ⟨hperm2, hsort2⟩ := selection_sort_spec (cats.map Prod.fst)
  have hmem2 : pyLower (pyStrip category) ∈ selection_sort (cats.map Prod.fst) :=
    hperm2.mem_iff.mpr (mem_keys_of_alistGet_some hget2)
  obtain ⟨hge2, hlt2, hval2⟩ := binary_search_found _ _ hsort2 hmem2
  simp only [search_resources_by_category]
  have hcond1 : (binary_search (selection_sort (db.map Prod.fst))
      (pyLower (pyStrip location)) 0
      (((selection_sort (db.map Prod.fst)).length : Int) - 1) != -1) = true := by
    rw [bne_iff_ne]
    omega
  rw [if_pos hcond1, hval1]
  simp only [hget1]
  have hcond2 : (binary_search (selection_sort (cats.map Prod.fst))
      (pyLower (pyStrip category)) 0
      (((selection_sort (cats.map Prod.fst)).length : Int) - 1) != -1) = true := by
    rw [bne_iff_ne]
    omega
  rw [if_pos hcond2, hval2]
  exact hget2

/- ------------------ C3 ------------------ -/

/-- C3 counterexample: the round-trip does not return the raw `name`
argument when `name` carries surrounding whitespace — the catalog stores the
trimmed name.  Here `addResource [] "a" "b" " x "` followed by a search with
case-variant keys returns `["x"]`, which does not include `" x "`. -/
theorem add_then_search_counterexample :
    search_resources_by_category (add_resource [] "a" "b" " x ").1 "A" "B" =
      some ["x"] ∧
    " x " ∉ (["x"] : List String) := by
  constructor
  · exact search_finds_bucket (add_resource [] "a" "b" " x ").1 "A" "B"
      [("b", ["x"])] ["x"] (by decide) (by decide)
  · decide

/-- C3 (amended): adding a resource and then searching for it round-trips
up to the stored normalization of the name: for every valid location and
category, every name that is nonempty after trimming, and every re-spelling
of the location and category that differs only by case or surrounding
whitespace (i.e. has the same trimmed lowercase normal form),
`searchByCategory` returns a bucket containing the trimmed name
(equal to `name` itself whenever `name` carries no surrounding
whitespace). -/
theorem add_then_search_roundtrip (db : ResourceDB)
    (location category name loc' cat' : String)
    (h1 : pyIsAlpha (removeSpaces location) = true)
    (h2 : pyIsAlpha (removeSpaces category) = true)
    (h3 : pyStrip name ≠ "")
    (hl : pyLower (pyStrip loc') = pyLower (pyStrip location))
    (hc : pyLower (pyStrip cat') = pyLower (pyStrip category)) :
    ∃ resources,
      search_resources_by_category
        (add_resource db location category name).1 loc' cat' =
        some resources ∧
      pyStrip name ∈ resources := by
  obtain ⟨cats, lst, hg1, hg2, hmem⟩ :=
    add_resource_success_lookup db location category name h1 h2 h3
  refine ⟨lst, ?_, hmem⟩
  refine search_finds_bucket (add_resource db location category name).1
    loc' cat' cats lst ?_ ?_
  · rw [hl]
    exact hg1
  · rw [hc]
    exact hg2

theorem add_then_search_roundtrip_witness :
    ∃ resources,
      search_resources_by_category
        (add_resource [] "San Jose" "Health" "Clinic").1 " san jose " "HEALTH" =
        some resources ∧
      pyStrip "Clinic" ∈ resources :=
  add_then_search_roundtrip [] "San Jose" "Health" "Clinic" " san jose " "HEALTH"
    (by decide) (by decide) (by decide) (by decide) (by decide)

/- ------------------ System states for the availability invariant ------------------ -/

/-- Whole-system state: the mentor registry plus the seeker records. -/
structure SysState where
  mentors : List Volunteer
  seekers : List Immigrant
deriving DecidableEq, Repr

/-- A progress entry recording a completed match with mentor `m`
(as written by `find_mentor`). -/
def isMatchEventFor (m : Volunteer) (e : ProgressEntry) : Bool :=
  e.session_type == "Mentor Matched" && e.details == "Matched with " ++ m.name

/-- Number of match events referencing mentor `m` across all seekers. -/
def matchEventCount (s : SysState) (m : Volunteer) : Nat :=
  (s.seekers.map (fun imm => imm.progress_log.countP (isMatchEventFor m))).sum

/-- System states reachable by the operations the program offers:
registering a mentor (with any initial availability — the volunteer menu
asks "Are you currently available?"), registering a seeker with an empty
log, an explicit `set_availability` update on a registered mentor, and a
match via `find_mentor`. -/
inductive SysReachable : SysState → Prop where
  | init : SysReachable ⟨[], []⟩
  | addMentor (s : SysState) (m : Volunteer) :
      SysReachable s → SysReachable ⟨add_mentor s.mentors m, s.seekers⟩
  | addSeeker (s : SysState) (imm : Immigrant) :
      imm.progress_log = [] →
      SysReachable s → SysReachable ⟨s.mentors, s.seekers ++ [imm]⟩
  | setAvail (s : SysState) (i : Nat) (hi : i < s.mentors.length) (b : Bool) :
      SysReachable s →
      SysReachable
        ⟨s.mentors.set i (set_availability (s.mentors.get ⟨i, hi⟩) b), s.seekers⟩
  | findMatch (s : SysState) (i : Nat) (hi : i < s.seekers.length)
      (expertise now : String) :
      SysReachable s →
      SysReachable
        ⟨(find_mentor s.mentors (s.seekers.get ⟨i, hi⟩) expertise now).1,
         s.seekers.set i
           (find_mentor s.mentors (s.seekers.get ⟨i, hi⟩) expertise now).2.1⟩

/-- A mentor who registered as unavailable. -/
def vBusy : Volunteer :=
  ⟨"Busy Bee", "busy.bee@example.com", "career", ["english"], false⟩

/- ------------------ C7 ------------------ -/

/-- C7 counterexample: a reachable state can hold a mentor whose
availability is `false` with no match event in any seeker's log: it
suffices to register a volunteer who answers "unavailable" at
registration.  Hence "availability = false implies exactly one match event
references the mentor" does not hold in every reachable state. -/
theorem unavailable_without_match_counterexample :
    SysReachable ⟨[vBusy], []⟩ ∧
    ¬ (∀ m ∈ (⟨[vBusy], []⟩ : SysState).mentors, m.availability = false →
        matchEventCount ⟨[vBusy], []⟩ m = 1) := by
  constructor
  · exact SysReachable.addMentor ⟨[], []⟩ vBusy SysReachable.init
  · intro h
    have := h vBusy (List.mem_cons_self _ _) rfl
    simp [matchEventCount] at this

/-- C7 (amended): a successful `find_mentor` match picks a mentor that was
available at call time (so a mentor whose availability is `false` is never
returned until explicitly re-enabled), flips exactly the winner's
availability to `false`, and appends exactly one match event referencing
the winner to the seeker's log; moreover no mentor with availability
`false` satisfies the match condition.  (Availability `false` can also
arise from registration or an explicit `set_availability` update, with no
match event — see the counterexample — so the original "exactly one match
event per unavailable mentor" invariant does not hold.) -/
theorem no_double_booking (mentors : List Volunteer) (immigrant : Immigrant)
    (expertise now : String) (m : Volunteer)
    (h : (find_mentor mentors immigrant expertise now).2.2 = some m) :
    ∃ i, ∃ hi : i < mentors.length,
      (mentors.get ⟨i, hi⟩).availability = true ∧
      m.availability = false ∧
      m = { mentors.get ⟨i, hi⟩ with availability := false } ∧
      (find_mentor mentors immigrant expertise now).1 = mentors.set i m ∧
      (find_mentor mentors immigrant expertise now).2.1.progress_log =
        immigrant.progress_log ++
          [⟨"Mentor Matched", "Matched with " ++ (mentors.get ⟨i, hi⟩).name, now⟩] ∧
      ∀ v ∈ mentors, v.availability = false →
        mentorMatches v expertise immigrant.desired_language = false := by
  obtain ⟨i, hi, h1, h2, h3, h4, h5⟩ :=
    find_mentor_some_inv mentors immigrant expertise now m h
  refine ⟨i, hi, h2, by rw [h3], h3, by rw [h5],
    by rw [h5]; simp [update_progress], ?_⟩
  intro v hv hav
  simp [mentorMatches, hav]

theorem no_double_booking_witness :
    ∃ i, ∃ hi : i < [vAlice].length,
      ([vAlice].get ⟨i, hi⟩).availability = true ∧
      (set_availability vAlice false).availability = false ∧
      set_availability vAlice false =
        { [vAlice].get ⟨i, hi⟩ with availability := false } ∧
      (find_mentor [vAlice] iMaria "language" "2024-01-01 10:00:00").1 =
        [vAlice].set i (set_availability vAlice false) ∧
      (find_mentor [vAlice] iMaria "language" "2024-01-01 10:00:00").2.1.progress_log =
        iMaria.progress_log ++
          [⟨"Mentor Matched", "Matched with " ++ ([vAlice].get ⟨i, hi⟩).name,
            "2024-01-01 10:00:00"⟩] ∧
      ∀ v ∈ [vAlice], v.availability = false →
        mentorMatches v "language" iMaria.desired_language = false :=
  no_double_booking [vAlice] iMaria "language" "2024-01-01 10:00:00"
    (set_availability vAlice false) (by decide)
